import Mathlib

/-!
Verification of the nengo builder/simulator helpers against their
natural-language specification.  Numeric buffers are embedded as lists of
rationals (the source computes with floats; all operations used by the
claims are field operations, so `ℚ` is the faithful exact embedding).
Fallible code returns `Except`.
-/

namespace Nengo

/-! ### helpers.transform (src/nengo/helpers.py, lines 37-86) -/

/-- Entry `(r, c)` of a matrix stored as a list of rows, defaulting to 0
out of range (in range this coincides with the Python `t[post][pre]`). -/
def entry (t : List (List ℚ)) (r c : ℕ) : ℚ := (t.getD r []).getD c 0

/-- The Python statement `t[post][pre] = weight`: replace entry `(r, c)`. -/
def setEntry (t : List (List ℚ)) (r c : ℕ) (w : ℚ) : List (List ℚ) :=
  t.set r ((t.getD r []).set c w)

/-- Embedding of `helpers.transform(pre_dims, post_dims, weight, index_pre, index_post)`.
`index_pre`/`index_post` are `none` when the caller omits them, in which
case the source substitutes `range(pre_dims)` / `range(post_dims)`.
(The source also accepts a bare int for either index, wrapping it in a
singleton list; the claims quantify over list and default arguments, so
that convenience coercion is applied before this function.)  The source
builds a `post_dims` by `pre_dims` zero matrix and writes `weight` at
`(index_post[i], index_pre[i])` for `i < min(len(index_pre), len(index_post))`. -/
def transform (pre_dims post_dims : ℕ) (weight : ℚ)
    (index_pre index_post : Option (List ℕ)) : List (List ℚ) :=
  let t0 := List.replicate post_dims (List.replicate pre_dims (0 : ℚ))
  let ipre := index_pre.getD (List.range pre_dims)
  let ipost := index_post.getD (List.range post_dims)
  (List.range (min ipre.length ipost.length)).foldl
    (fun t i => setEntry t (ipost.getD i 0) (ipre.getD i 0) weight) t0

/-- The `index_pre` list after the source's defaulting to `range(pre_dims)`. -/
def resolvedPre (pre_dims : ℕ) (index_pre : Option (List ℕ)) : List ℕ :=
  index_pre.getD (List.range pre_dims)

/-- The `index_post` list after the source's defaulting to `range(post_dims)`. -/
def resolvedPost (post_dims : ℕ) (index_post : Option (List ℕ)) : List ℕ :=
  index_post.getD (List.range post_dims)

/-- The identity matrix, as the spec's "default identity" transform. -/
def idMatrix (n : ℕ) : List (List ℚ) :=
  (List.range n).map (fun i => (List.range n).map (fun j => if i = j then 1 else 0))

lemma length_setEntry (t : List (List ℚ)) (r c : ℕ) (w : ℚ) :
    (setEntry t r c w).length = t.length :=
  List.length_set t r _

lemma rows_setEntry (t : List (List ℚ)) (r c : ℕ) (w : ℚ) (pre : ℕ)
    (hrows : ∀ row ∈ t, row.length = pre) :
    ∀ row ∈ setEntry t r c w, row.length = pre := by
  intro row hrow
  by_cases hr : r < t.length
  · rcases List.mem_or_eq_of_mem_set hrow with h | h
    · exact hrows row h
    · subst h
      rw [List.length_set, List.getD_eq_getElem t [] hr]
      exact hrows _ (List.getElem_mem hr)
  · rw [setEntry, List.set_eq_of_length_le (le_of_not_lt hr)] at hrow
    exact hrows row hrow

lemma entry_setEntry_self (t : List (List ℚ)) (r c : ℕ) (w : ℚ)
    (hr : r < t.length) (hc : c < (t.getD r []).length) :
    entry (setEntry t r c w) r c = w := by
  unfold entry setEntry
  simp only [List.getD_eq_getElem?_getD] at hc ⊢
  rw [List.getElem?_set_self hr]
  simp only [Option.getD_some]
  rw [List.getElem?_set_self hc]
  rfl

lemma entry_setEntry_ne (t : List (List ℚ)) (r c r' c' : ℕ) (w : ℚ)
    (h : r' ≠ r ∨ c' ≠ c) :
    entry (setEntry t r c w) r' c' = entry t r' c' := by
  unfold entry setEntry
  simp only [List.getD_eq_getElem?_getD]
  by_cases hr' : r = r'
  · subst hr'
    have hc : c' ≠ c := h.resolve_left (fun hne => hne rfl)
    by_cases hr : r < t.length
    · rw [List.getElem?_set_self hr]
      simp only [Option.getD_some]
      rw [List.getElem?_set_ne hc.symm]
    · rw [List.set_eq_of_length_le (le_of_not_lt hr)]
  · rw [List.getElem?_set_ne hr']

lemma getD_mem (l : List ℕ) (i : ℕ) (h : i < l.length) : l.getD i 0 ∈ l := by
  rw [List.getD_eq_getElem l 0 h]
  exact List.getElem_mem h

lemma foldWrite_shape (ipre ipost : List ℕ) (w : ℚ) :
    ∀ (idxs : List ℕ) (t : List (List ℚ)) (pre : ℕ),
      (∀ row ∈ t, row.length = pre) →
      ((idxs.foldl (fun t i => setEntry t (ipost.getD i 0) (ipre.getD i 0) w)
          t).length = t.length ∧
        ∀ row ∈ idxs.foldl (fun t i => setEntry t (ipost.getD i 0) (ipre.getD i 0) w) t,
          row.length = pre)
  | [], _, _, h => ⟨rfl, h⟩
  | i :: idxs, t, pre, h => by
      rw [List.foldl_cons]
      obtain ⟨h1, h2⟩ :=
        foldWrite_shape ipre ipost w idxs _ pre (rows_setEntry _ _ _ _ _ h)
      exact ⟨h1.trans (length_setEntry _ _ _ _), h2⟩

lemma foldWrite_entry (ipre ipost : List ℕ) (w : ℚ) (pre post : ℕ)
    (hpre : ∀ x ∈ ipre, x < pre) (hpost : ∀ x ∈ ipost, x < post) :
    ∀ (idxs : List ℕ) (t : List (List ℚ)),
      t.length = post → (∀ row ∈ t, row.length = pre) →
      (∀ i ∈ idxs, i < ipre.length ∧ i < ipost.length) →
      ∀ r c,
        entry (idxs.foldl (fun t i => setEntry t (ipost.getD i 0) (ipre.getD i 0) w) t) r c =
          if idxs.any (fun i => ipost.getD i 0 == r && ipre.getD i 0 == c) then w
          else entry t r c
  | [], t, _, _, _, r, c => by simp
  | i :: idxs, t, hlen, hrows, hidx, r, c => by
      rw [List.foldl_cons, List.any_cons]
      have hiL : i < ipre.length ∧ i < ipost.length := hidx i (List.mem_cons_self i idxs)
      have hpostR : ipost.getD i 0 < post := hpost _ (getD_mem _ _ hiL.2)
      have hpreR : ipre.getD i 0 < pre := hpre _ (getD_mem _ _ hiL.1)
      have hrShape : (t.getD (ipost.getD i 0) []).length = pre := by
        rw [List.getD_eq_getElem t [] (by omega)]
        exact hrows _ (List.getElem_mem (by omega))
      have hIH :=
        foldWrite_entry ipre ipost w pre post hpre hpost idxs
          (setEntry t (ipost.getD i 0) (ipre.getD i 0) w)
          ((length_setEntry _ _ _ _).trans hlen)
          (rows_setEntry _ _ _ _ _ hrows)
          (fun j hj => hidx j (List.mem_cons_of_mem i hj)) r c
      rw [hIH]
      by_cases hrest : idxs.any (fun i => ipost.getD i 0 == r && ipre.getD i 0 == c) = true
      · rw [hrest]
        simp
      · simp only [Bool.not_eq_true] at hrest
        rw [hrest]
        by_cases hhead : ipost.getD i 0 = r ∧ ipre.getD i 0 = c
        · obtain ⟨h1, h2⟩ := hhead
          subst h1; subst h2
          rw [entry_setEntry_self t _ _ w (by omega) (by omega)]
          simp
        · have hne : r ≠ ipost.getD i 0 ∨ c ≠ ipre.getD i 0 := by
            by_contra hcon
            push_neg at hcon
            exact hhead ⟨hcon.1.symm, hcon.2.symm⟩
          rw [entry_setEntry_ne t _ _ r c w hne]
          have hfi : (ipost.getD i 0 == r && ipre.getD i 0 == c) = false := by
            rcases hne with h | h
            · rw [beq_eq_false_iff_ne.mpr h.symm, Bool.false_and]
            · rw [beq_eq_false_iff_ne.mpr h.symm, Bool.and_false]
          rw [hfi]
          simp

lemma entry_zeroMatrix (pre post r c : ℕ) :
    entry (List.replicate post (List.replicate pre (0 : ℚ))) r c = 0 := by
  unfold entry
  simp only [List.getD_eq_getElem?_getD, List.getElem?_replicate]
  by_cases hr : r < post
  · rw [if_pos hr]
    simp only [Option.getD_some, List.getElem?_replicate]
    by_cases hc : c < pre
    · rw [if_pos hc]; rfl
    · rw [if_neg hc]; rfl
  · rw [if_neg hr]
    simp

/-- The matrix-building loop of `transform`, abstracted over the already
resolved index lists. -/
def transformAux (pre post : ℕ) (w : ℚ) (ipre ipost : List ℕ) : List (List ℚ) :=
  (List.range (min ipre.length ipost.length)).foldl
    (fun t i => setEntry t (ipost.getD i 0) (ipre.getD i 0) w)
    (List.replicate post (List.replicate pre (0 : ℚ)))

lemma transform_eq (pre_dims post_dims : ℕ) (weight : ℚ)
    (index_pre index_post : Option (List ℕ)) :
    transform pre_dims post_dims weight index_pre index_post =
      transformAux pre_dims post_dims weight (resolvedPre pre_dims index_pre)
        (resolvedPost post_dims index_post) := rfl

lemma zeroRows (pre post : ℕ) :
    ∀ row ∈ List.replicate post (List.replicate pre (0 : ℚ)), row.length = pre := by
  intro row hrow
  rw [(List.mem_replicate.mp hrow).2]
  exact List.length_replicate _ _

lemma transformAux_shape (pre post : ℕ) (w : ℚ) (ipre ipost : List ℕ) :
    (transformAux pre post w ipre ipost).length = post ∧
      ∀ row ∈ transformAux pre post w ipre ipost, row.length = pre := by
  obtain ⟨h1, h2⟩ :=
    foldWrite_shape ipre ipost w (List.range (min ipre.length ipost.length)) _
      pre (zeroRows pre post)
  exact ⟨h1.trans (List.length_replicate _ _), h2⟩

lemma transformAux_entry (pre post : ℕ) (w : ℚ) (ipre ipost : List ℕ)
    (hpre : ∀ x ∈ ipre, x < pre) (hpost : ∀ x ∈ ipost, x < post) (r c : ℕ) :
    entry (transformAux pre post w ipre ipost) r c =
      if (List.range (min ipre.length ipost.length)).any
          (fun i => ipost.getD i 0 == r && ipre.getD i 0 == c) then w
      else 0 := by
  have h :=
    foldWrite_entry ipre ipost w pre post hpre hpost
      (List.range (min ipre.length ipost.length))
      (List.replicate post (List.replicate pre (0 : ℚ)))
      (List.length_replicate _ _) (zeroRows pre post)
      (fun i hi => by
        have := List.mem_range.mp hi
        omega) r c
  rw [transformAux, h, entry_zeroMatrix]

lemma getD_range (n i : ℕ) (h : i < n) : (List.range n).getD i 0 = i := by
  rw [List.getD_eq_getElem _ 0 (by simpa using h)]
  exact List.getElem_range _ _

lemma getElem?_map_range {β : Type} (n i : ℕ) (f : ℕ → β) :
    ((List.range n).map f)[i]? = if i < n then some (f i) else none := by
  rw [List.getElem?_map]
  by_cases h : i < n
  · rw [List.getElem?_range h, if_pos h]
    rfl
  · rw [if_neg h, List.getElem?_eq_none (by simpa using le_of_not_lt h)]
    rfl

lemma transformAux_id (n : ℕ) :
    transformAux n n 1 (List.range n) (List.range n) = idMatrix n := by
  have hpre : ∀ x ∈ List.range n, x < n := fun x hx => List.mem_range.mp hx
  obtain ⟨hlen, hrows⟩ := transformAux_shape n n 1 (List.range n) (List.range n)
  have hentry : ∀ r c, r < n → c < n →
      entry (transformAux n n 1 (List.range n) (List.range n)) r c =
        if r = c then 1 else 0 := by
    intro r c hr hc
    rw [transformAux_entry n n 1 _ _ hpre hpre r c]
    simp only [List.length_range, min_self]
    by_cases hrc : r = c
    · subst hrc
      rw [if_pos, if_pos rfl]
      apply List.any_eq_true.mpr
      refine ⟨r, List.mem_range.mpr hr, ?_⟩
      rw [getD_range n r hr]
      simp
    · rw [if_neg, if_neg hrc]
      intro hany
      obtain ⟨x, hx, hval⟩ := List.any_eq_true.mp hany
      have hxn : x < n := List.mem_range.mp hx
      rw [Bool.and_eq_true, beq_iff_eq, beq_iff_eq, getD_range n x hxn] at hval
      exact hrc (hval.1.symm.trans hval.2)
  apply List.ext_getElem?
  intro r
  by_cases hr : r < n
  · have hrl : r < (transformAux n n 1 (List.range n) (List.range n)).length := by
      rw [hlen]; exact hr
    rw [List.getElem?_eq_getElem hrl, idMatrix, getElem?_map_range, if_pos hr]
    congr 1
    have hrowlen : (transformAux n n 1 (List.range n) (List.range n))[r].length = n :=
      hrows _ (List.getElem_mem hrl)
    apply List.ext_getElem?
    intro c
    by_cases hc : c < n
    · have hcl : c < (transformAux n n 1 (List.range n) (List.range n))[r].length := by
        rw [hrowlen]; exact hc
      rw [List.getElem?_eq_getElem hcl, getElem?_map_range, if_pos hc]
      congr 1
      have : (transformAux n n 1 (List.range n) (List.range n))[r][c] =
          entry (transformAux n n 1 (List.range n) (List.range n)) r c := by
        rw [entry, List.getD_eq_getElem _ [] hrl, List.getD_eq_getElem _ 0 hcl]
      rw [this, hentry r c hr hc]
    · rw [List.getElem?_eq_none (by rw [hrowlen]; exact le_of_not_lt hc),
        getElem?_map_range, if_neg hc]
  · rw [List.getElem?_eq_none (by rw [hlen]; exact le_of_not_lt hr),
      idMatrix, getElem?_map_range, if_neg hr]

/-- C8: `helpers.transform(pre_dims, post_dims, weight, index_pre, index_post)`
returns a matrix of exactly `post_dims` rows with `pre_dims` entries each,
whose entry at row `index_post[i]`, column `index_pre[i]` equals `weight` for
every `i < min(len(index_pre), len(index_post))`, and which is 0 everywhere
else (`index_pre`/`index_post` defaulting to `0..pre_dims-1` and
`0..post_dims-1`); with all defaults and `pre_dims = post_dims` the result is
the identity matrix. -/
theorem transform_spec (pre_dims post_dims : ℕ) (weight : ℚ)
    (index_pre index_post : Option (List ℕ))
    (hpre : ∀ x ∈ resolvedPre pre_dims index_pre, x < pre_dims)
    (hpost : ∀ x ∈ resolvedPost post_dims index_post, x < post_dims) :
    (transform pre_dims post_dims weight index_pre index_post).length = post_dims ∧
    (∀ row ∈ transform pre_dims post_dims weight index_pre index_post,
        row.length = pre_dims) ∧
    (∀ i, i < min (resolvedPre pre_dims index_pre).length
          (resolvedPost post_dims index_post).length →
        entry (transform pre_dims post_dims weight index_pre index_post)
          ((resolvedPost post_dims index_post).getD i 0)
          ((resolvedPre pre_dims index_pre).getD i 0) = weight) ∧
    (∀ r c,
        (∀ i, i < min (resolvedPre pre_dims index_pre).length
            (resolvedPost post_dims index_post).length →
          ¬((resolvedPost post_dims index_post).getD i 0 = r ∧
            (resolvedPre pre_dims index_pre).getD i 0 = c)) →
        entry (transform pre_dims post_dims weight index_pre index_post) r c = 0) ∧
    (pre_dims = post_dims →
        transform pre_dims post_dims 1 none none = idMatrix pre_dims) := by
  rw [transform_eq]
  obtain ⟨h1, h2⟩ := transformAux_shape pre_dims post_dims weight
    (resolvedPre pre_dims index_pre) (resolvedPost post_dims index_post)
  refine ⟨h1, h2, ?_, ?_, ?_⟩
  · intro i hi
    rw [transformAux_entry _ _ _ _ _ hpre hpost, if_pos]
    apply List.any_eq_true.mpr
    exact ⟨i, List.mem_range.mpr hi, by simp⟩
  · intro r c hno
    rw [transformAux_entry _ _ _ _ _ hpre hpost, if_neg]
    intro hany
    obtain ⟨x, hx, hval⟩ := List.any_eq_true.mp hany
    rw [Bool.and_eq_true, beq_iff_eq, beq_iff_eq] at hval
    exact hno x (List.mem_range.mp hx) hval
  · intro hpp
    subst hpp
    rw [transform_eq]
    exact transformAux_id pre_dims

/-- Witness for `transform_spec` at `pre_dims = 2`, `post_dims = 3`,
`weight = 5`, `index_pre = [0, 1]`, `index_post = [1, 2]`. -/
theorem transform_spec_witness :
    (transform 2 3 5 (some [0, 1]) (some [1, 2])).length = 3 ∧
      entry (transform 2 3 5 (some [0, 1]) (some [1, 2])) 1 0 = 5 := by
  have h := transform_spec 2 3 5 (some [0, 1]) (some [1, 2])
    (by decide) (by decide)
  exact ⟨h.1, h.2.2.1 0 (by decide)⟩

/-! ### helpers.piecewise (src/nengo/helpers.py, lines 135-251) -/

/-- A value of the `data` dictionary passed to `piecewise`: a number or a
list of numbers.  (The source also accepts callables, calling them at time
0.0 for the length check; the claims considered here restrict values to
non-callable numbers and lists, so callables are not embedded.) -/
inductive PVal where
  | num (x : ℚ)
  | list (l : List ℚ)
deriving DecidableEq

/-- The source's normalization of a dictionary value before it is stored in
`ordered_data`: a number is wrapped into a one-element list. -/
def PVal.toList : PVal → List ℚ
  | .num x => [x]
  | .list l => l

/-- The length attributed to a value by the source's length check
(a number counts as length 1). -/
def PVal.plen (v : PVal) : ℕ := v.toList.length

/-- The length-checking loop of `piecewise`: threads `output_length`
(`none` before the first item) through the ordered data, raising on the
first mismatch.  An empty dictionary leaves `output_length = None`, on
which the source's `initial_value = [0]*output_length` raises a
`TypeError`. -/
def checkLengths : List (ℚ × List ℚ) → Option ℕ → Except String ℕ
  | [], none => .error "TypeError: cannot multiply sequence by None"
  | [], some L => .ok L
  | (_, out) :: rest, none => checkLengths rest (some out.length)
  | (_, out) :: rest, some L =>
      if out.length = L then checkLengths rest (some L)
      else .error "invalid data for piecewise function"

/-- The loop body of the returned `piecewise_function`: scan the ordered
data, replacing `value` by each output whose time is at most `t`, stopping
at the first later time. -/
def piecewiseGo (t : ℚ) : List (ℚ × List ℚ) → List ℚ → List ℚ
  | [], value => value
  | (time, out) :: rest, value =>
      if time ≤ t then piecewiseGo t rest out else value

/-- The source's `sorted(data.items())`: the items ordered by key. -/
def sortData (data : List (ℚ × PVal)) : List (ℚ × PVal) :=
  data.mergeSort (fun a b => a.1 ≤ b.1)

/-- Embedding of `helpers.piecewise(data)`: sorts the items, normalizes values to lists,
checks all lengths agree, and returns the lookup function; the function
starts from the all-zero list for times before the first key. -/
def piecewise (data : List (ℚ × PVal)) : Except String (ℚ → List ℚ) :=
  let ordered := (sortData data).map (fun p => (p.1, p.2.toList))
  match checkLengths ordered none with
  | .error e => .error e
  | .ok L => .ok (fun t => piecewiseGo t ordered (List.replicate L 0))

lemma checkLengths_some_ok (l : List (ℚ × List ℚ)) (L : ℕ)
    (h : ∀ p ∈ l, p.2.length = L) : checkLengths l (some L) = .ok L := by
  induction l with
  | nil => rfl
  | cons p rest ih =>
      obtain ⟨time, out⟩ := p
      have hout : out.length = L := h _ (List.mem_cons_self _ _)
      rw [checkLengths, if_pos hout]
      exact ih (fun q hq => h q (List.mem_cons_of_mem _ hq))

lemma checkLengths_ok (l : List (ℚ × List ℚ)) (L : ℕ) (hne : l ≠ [])
    (h : ∀ p ∈ l, p.2.length = L) : checkLengths l none = .ok L := by
  cases l with
  | nil => exact absurd rfl hne
  | cons p rest =>
      obtain ⟨time, out⟩ := p
      have hout : out.length = L := h _ (List.mem_cons_self _ _)
      rw [checkLengths, hout]
      exact checkLengths_some_ok rest L (fun q hq => h q (List.mem_cons_of_mem _ hq))

lemma checkLengths_some_inv (l : List (ℚ × List ℚ)) (L0 L : ℕ)
    (h : checkLengths l (some L0) = .ok L) :
    L0 = L ∧ ∀ p ∈ l, p.2.length = L := by
  induction l generalizing L0 with
  | nil =>
      refine ⟨?_, by simp⟩
      simpa [checkLengths] using h
  | cons p rest ih =>
      obtain ⟨time, out⟩ := p
      rw [checkLengths] at h
      by_cases hout : out.length = L0
      · rw [if_pos hout] at h
        obtain ⟨h1, h2⟩ := ih L0 h
        subst h1
        exact ⟨rfl, by
          intro q hq
          rcases List.mem_cons.mp hq with hq | hq
          · rw [hq, hout]
          · exact h2 q hq⟩
      · rw [if_neg hout] at h
        exact absurd h (by simp)

lemma checkLengths_none_inv (l : List (ℚ × List ℚ)) (L : ℕ)
    (h : checkLengths l none = .ok L) :
    l ≠ [] ∧ ∀ p ∈ l, p.2.length = L := by
  cases l with
  | nil => exact absurd h (by simp [checkLengths])
  | cons p rest =>
      obtain ⟨time, out⟩ := p
      rw [checkLengths] at h
      obtain ⟨h1, h2⟩ := checkLengths_some_inv rest out.length L h
      refine ⟨by simp, ?_⟩
      intro q hq
      rcases List.mem_cons.mp hq with hq | hq
      · rw [hq]; exact h1
      · exact h2 q hq

lemma piecewiseGo_length (t : ℚ) (l : List (ℚ × List ℚ)) :
    ∀ (start : List ℚ) (L : ℕ), start.length = L → (∀ p ∈ l, p.2.length = L) →
      (piecewiseGo t l start).length = L := by
  induction l with
  | nil =>
      intro start L hstart _
      exact hstart
  | cons p rest ih =>
      intro start L hstart h
      obtain ⟨time, out⟩ := p
      rw [piecewiseGo]
      by_cases htime : time ≤ t
      · rw [if_pos htime]
        exact ih out L (h _ (List.mem_cons_self _ _))
          (fun q hq => h q (List.mem_cons_of_mem _ hq))
      · rw [if_neg htime]
        exact hstart

lemma piecewiseGo_before (t : ℚ) (l : List (ℚ × List ℚ)) (start : List ℚ)
    (h : ∀ p ∈ l, t < p.1) : piecewiseGo t l start = start := by
  cases l with
  | nil => rfl
  | cons p rest =>
      obtain ⟨time, out⟩ := p
      rw [piecewiseGo, if_neg (not_le.mpr (h _ (List.mem_cons_self _ _)))]

lemma mem_ordered (data : List (ℚ × PVal)) (q : ℚ × List ℚ)
    (hq : q ∈ (sortData data).map (fun p => (p.1, p.2.toList))) :
    ∃ p ∈ data, q = (p.1, p.2.toList) := by
  obtain ⟨p, hp, hpq⟩ := List.mem_map.mp hq
  exact ⟨p, List.mem_mergeSort.mp hp, hpq.symm⟩

lemma ordered_ne_nil (data : List (ℚ × PVal)) (hne : data ≠ []) :
    (sortData data).map (fun p => (p.1, p.2.toList)) ≠ [] := by
  intro h
  apply hne
  have hlen : data.length = 0 := by
    have h1 := congrArg List.length h
    rw [List.length_map] at h1
    have h2 := (List.mergeSort_perm data (fun a b => a.1 ≤ b.1)).length_eq
    rw [sortData] at h1
    simpa [h1] using h2.symm
  exact List.length_eq_zero.mp hlen

/-- C7 counterexample: for the empty dictionary no two values have different
lengths, yet `piecewise` does not return a function — the source leaves
`output_length = None` and `initial_value = [0]*output_length` raises a
`TypeError` at creation. -/
theorem piecewise_empty_cex :
    ¬ ∃ f, piecewise [] = Except.ok f := by
  rintro ⟨f, hf⟩
  simp [piecewise, sortData, checkLengths] at hf

/-- C7 (amended): for every nonempty dictionary with numeric keys whose
values are numbers or lists, `piecewise` raises an error at creation when
two values have different lengths (numbers counting as length 1), and
otherwise returns a function whose output at every time `t` is a list of
exactly the common length; for `t` below the smallest key it returns the
all-zero list of that length.  (The empty dictionary also raises an
error.) -/
theorem piecewise_spec (data : List (ℚ × PVal)) :
    (∀ L, data ≠ [] → (∀ p ∈ data, p.2.plen = L) →
      ∃ f, piecewise data = Except.ok f ∧ (∀ t, (f t).length = L) ∧
        ∀ t, (∀ p ∈ data, t < p.1) → f t = List.replicate L 0) ∧
    ((¬ ∃ L, ∀ p ∈ data, p.2.plen = L) → ∃ e, piecewise data = Except.error e) := by
  constructor
  · intro L hne hL
    have hord : ∀ q ∈ (sortData data).map (fun p => (p.1, p.2.toList)),
        q.2.length = L := by
      intro q hq
      obtain ⟨p, hp, hpq⟩ := mem_ordered data q hq
      rw [hpq]
      exact hL p hp
    have hck := checkLengths_ok _ L (ordered_ne_nil data hne) hord
    refine ⟨fun t => piecewiseGo t ((sortData data).map (fun p => (p.1, p.2.toList)))
      (List.replicate L 0), ?_, ?_, ?_⟩
    · rw [piecewise]
      simp only [hck]
    · intro t
      exact piecewiseGo_length t _ _ L (List.length_replicate _ _) hord
    · intro t ht
      apply piecewiseGo_before
      intro q hq
      obtain ⟨p, hp, hpq⟩ := mem_ordered data q hq
      rw [hpq]
      exact ht p hp
  · intro hnoL
    rcases hck : checkLengths ((sortData data).map (fun p => (p.1, p.2.toList))) none with e | L
    · exact ⟨e, by rw [piecewise]; simp only [hck]⟩
    · exfalso
      apply hnoL
      refine ⟨L, ?_⟩
      intro p hp
      have hmem : (p.1, p.2.toList) ∈ (sortData data).map (fun q => (q.1, q.2.toList)) :=
        List.mem_map.mpr ⟨p, List.mem_mergeSort.mpr hp, rfl⟩
      exact (checkLengths_none_inv _ L hck).2 _ hmem

/-- Witness for `piecewise_spec` at the docstring's example
`{0.5: 1, 0.75: -1}`. -/
theorem piecewise_spec_witness :
    ∃ f, piecewise [((1 : ℚ)/2, PVal.num 1), ((3 : ℚ)/4, PVal.num (-1))] =
        Except.ok f ∧
      (∀ t, (f t).length = 1) ∧
      ∀ t, (∀ p ∈ [((1 : ℚ)/2, PVal.num 1), ((3 : ℚ)/4, PVal.num (-1))], t < p.1) →
        f t = List.replicate 1 0 :=
  (piecewise_spec [((1 : ℚ)/2, PVal.num 1), ((3 : ℚ)/4, PVal.num (-1))]).1 1
    (by decide) (by decide)

/-! ### helpers.sorted_neurons (src/nengo/helpers.py, lines 254-357) -/

/-- numpy's fancy-index swap `a[[i, j]] = a[[j, i]]`: exchange the entries
at `i` and `j`.  Both indices are in range at every call site of the
source; out of range the embedding leaves the list unchanged. -/
def swapIdx {α : Type} (l : List α) (i j : ℕ) : List α :=
  match l[i]?, l[j]? with
  | some a, some b => (l.set i b).set j a
  | _, _ => l

/-- Embedding of `np.dot` of two vectors of equal length. -/
def dotQ (a b : List ℚ) : ℚ := (a.zip b).foldl (fun s p => s + p.1 * p.2) 0

/-- The inner `score(encoders, index, rows, cols=1)` helper: average dot
product with the (up to four) grid neighbours.  `index / cols` and
`index % cols` follow the source's Python 2 integer division; the final
`sim/count` is rational division (at every reachable call `count ≥ 1`,
since the source only calls `score` with `cols = 1`, `rows = N ≥ 2` and
`index < N`). -/
def score (encoders : List (List ℚ)) (index rows cols : ℕ) : ℚ :=
  let i := index % cols
  let j := index / cols
  let g := fun k => encoders.getD k []
  let sw : ℚ × ℕ := (0, 0)
  let sw := if 0 < i then (sw.1 + dotQ (g (j*cols+i)) (g (j*cols+i-1)), sw.2 + 1) else sw
  let sw := if i < cols - 1 then (sw.1 + dotQ (g (j*cols+i)) (g (j*cols+i+1)), sw.2 + 1) else sw
  let sw := if 0 < j then (sw.1 + dotQ (g (j*cols+i)) (g ((j-1)*cols+i)), sw.2 + 1) else sw
  let sw := if j < rows - 1 then (sw.1 + dotQ (g (j*cols+i)) (g ((j+1)*cols+i)), sw.2 + 1) else sw
  sw.1 / (sw.2 : ℚ)

/-- The source's row normalization `encoders[i,:] /= norm(encoders[i,:])`,
applied to the fresh `np.array` copy of the ensemble's encoders.  The
Euclidean norm is irrational over ℚ, so the row normalizer `normF` is a
parameter; every theorem below holds for all `normF`, in particular for
the true norm. -/
def normalizeRows (normF : List ℚ → ℚ) (encoders : List (List ℚ)) : List (List ℚ) :=
  encoders.map (fun row => row.map (fun x => x / normF row))

/-- One step of `sorted_neurons`' inner loop (one candidate swap): swap
encoders and indices at `i` and `j = target[i]`, and swap back when the
unswapped similarity was better. -/
def sortedNeuronsInner (rows : ℕ) (target : ℕ → ℕ)
    (st : List (List ℚ) × List ℕ) (i : ℕ) : List (List ℚ) × List ℕ :=
  let j := target i
  if i ≠ j then
    let sim1 := score st.1 i rows 1 + score st.1 j rows 1
    let enc := swapIdx st.1 i j
    let ind := swapIdx st.2 i j
    let sim2 := score enc i rows 1 + score enc j rows 1
    if sim1 > sim2 then st else (enc, ind)
  else st

/-- Embedding of `helpers.sorted_neurons(ensemble, iterations, seed)`.  `target k i`
stands for entry `i` of the iteration-`k` draw `rng.randint(0, N, N)` of
the RNG seeded with `seed`: quantifying over all such functions covers
every seed.  The index array starts as `np.arange(N)` and is modified only
by the pair swaps of the inner loop. -/
def sorted_neurons (normF : List ℚ → ℚ) (ensembleEncoders : List (List ℚ))
    (iterations : ℕ) (target : ℕ → ℕ → ℕ) : List ℕ :=
  let encoders := normalizeRows normF ensembleEncoders
  let N := encoders.length
  let indices := List.range N
  ((List.range iterations).foldl
    (fun st k => (List.range N).foldl (sortedNeuronsInner N (target k)) st)
    (encoders, indices)).2

lemma cons_set_perm {α : Type} :
    ∀ (xs : List α) (j : ℕ) (b x : α), xs[j]? = some b →
      (b :: xs.set j x).Perm (x :: xs)
  | [], _, _, _, h => by simp at h
  | y :: t, 0, b, x, h => by
      simp only [List.getElem?_cons_zero, Option.some.injEq] at h
      subst h
      exact List.Perm.swap x y t
  | y :: t, j+1, b, x, h => by
      simp only [List.getElem?_cons_succ] at h
      exact (List.Perm.swap y b (t.set j x)).trans
        (((cons_set_perm t j b x h).cons y).trans (List.Perm.swap x y t))

lemma set_set_perm {α : Type} :
    ∀ (l : List α) (i j : ℕ) (a b : α), l[i]? = some a → l[j]? = some b →
      ((l.set i b).set j a).Perm l
  | [], _, _, _, _, hi, _ => by simp at hi
  | x :: t, 0, 0, a, b, hi, hj => by
      simp only [List.getElem?_cons_zero, Option.some.injEq] at hi hj
      subst hi
      exact List.Perm.refl (x :: t)
  | x :: t, 0, j+1, a, b, hi, hj => by
      simp only [List.getElem?_cons_zero, Option.some.injEq,
        List.getElem?_cons_succ] at hi hj
      subst hi
      exact cons_set_perm t j b x hj
  | x :: t, i+1, 0, a, b, hi, hj => by
      simp only [List.getElem?_cons_zero, Option.some.injEq,
        List.getElem?_cons_succ] at hi hj
      subst hj
      exact cons_set_perm t i a x hi
  | x :: t, i+1, j+1, a, b, hi, hj => by
      simp only [List.getElem?_cons_succ] at hi hj
      exact (set_set_perm t i j a b hi hj).cons x

lemma swapIdx_perm {α : Type} (l : List α) (i j : ℕ) : (swapIdx l i j).Perm l := by
  unfold swapIdx
  rcases hi : l[i]? with _ | a
  · rcases hj : l[j]? with _ | b
    · exact List.Perm.refl l
    · exact List.Perm.refl l
  · rcases hj : l[j]? with _ | b
    · exact List.Perm.refl l
    · exact set_set_perm l i j a b hi hj

lemma inner_snd_perm (rows : ℕ) (target : ℕ → ℕ)
    (st : List (List ℚ) × List ℕ) (i : ℕ) :
    ((sortedNeuronsInner rows target st i).2).Perm st.2 := by
  simp only [sortedNeuronsInner]
  split_ifs
  · exact List.Perm.refl _
  · exact swapIdx_perm st.2 i (target i)
  · exact List.Perm.refl _

lemma foldl_inner_perm (rows : ℕ) (target : ℕ → ℕ) :
    ∀ (idxs : List ℕ) (st : List (List ℚ) × List ℕ),
      ((idxs.foldl (sortedNeuronsInner rows target) st).2).Perm st.2
  | [], _ => List.Perm.refl _
  | i :: idxs, st => by
      rw [List.foldl_cons]
      exact (foldl_inner_perm rows target idxs _).trans (inner_snd_perm rows target st i)

lemma foldl_outer_perm (rows : ℕ) (target : ℕ → ℕ → ℕ) :
    ∀ (ks : List ℕ) (st : List (List ℚ) × List ℕ),
      ((ks.foldl
        (fun st k => (List.range rows).foldl (sortedNeuronsInner rows (target k)) st)
        st).2).Perm st.2
  | [], _ => List.Perm.refl _
  | k :: ks, st => by
      rw [List.foldl_cons]
      exact (foldl_outer_perm rows target ks _).trans
        (foldl_inner_perm rows (target k) (List.range rows) st)

/-- C9: for every encoder array with `N ≥ 1` rows, every iteration count
and every seed (every swap-target draw function, covering every seed),
`sorted_neurons` returns a permutation of `{0, ..., N−1}` — the index
array starts as `0..N−1` and is modified only by pair swaps.  The source
copies the ensemble's encoders (`np.array(ensemble.encoders)`) before
normalizing, so the ensemble's own encoders are read purely and never
mutated, as this embedding makes structural. -/
theorem sorted_neurons_perm (normF : List ℚ → ℚ)
    (ensembleEncoders : List (List ℚ)) (iterations : ℕ)
    (target : ℕ → ℕ → ℕ) (hN : 1 ≤ ensembleEncoders.length) :
    (sorted_neurons normF ensembleEncoders iterations target).Perm
      (List.range ensembleEncoders.length) := by
  have hpos : 0 < ensembleEncoders.length := hN
  have hlen : (normalizeRows normF ensembleEncoders).length =
      ensembleEncoders.length := List.length_map _ _
  simp only [sorted_neurons, hlen]
  exact foldl_outer_perm ensembleEncoders.length target (List.range iterations) _

/-- Witness for `sorted_neurons_perm` on a concrete three-row encoder
array. -/
theorem sorted_neurons_perm_witness :
    (sorted_neurons (fun _ => 1) [[(1 : ℚ)], [(-1 : ℚ)], [(1 : ℚ)]] 1
        (fun _ _ => 0)).Perm (List.range 3) :=
  sorted_neurons_perm (fun _ => 1) [[(1 : ℚ)], [(-1 : ℚ)], [(1 : ℚ)]] 1
    (fun _ _ => 0) (by decide)

/-! ### helpers.weights (src/nengo/helpers.py, lines 89-129) -/

/-- A Python runtime error raised during execution of a helper. -/
inductive PyError where
  | nameError (n : String)
deriving DecidableEq

/-- The global names bound at module level in `src/nengo/helpers.py`: the
imports (`copy`, `np` for numpy, `decoders`) and the module's own
definitions.  `inspect` is NOT imported by the module, and `func` is not a
parameter of `weights` (its parameter is named `function`), so neither
name resolves at call time. -/
def helpersGlobals : List String :=
  ["copy", "np", "decoders", "tuning_curves", "encoders", "transform",
   "weights", "piecewise", "sorted_neurons", "white_noise"]

/-- Python name resolution against the module globals (none of the names
used here is a builtin): an unbound name raises `NameError` at the moment
the referencing statement executes. -/
def resolveName (n : String) : Except PyError Unit :=
  if helpersGlobals.contains n then .ok () else .error (.nameError n)

/-- Embedding of `helpers.weights(pre_neurons, post_neurons, function)`.  Its first
statement is `argspec = inspect.getargspec(func)`, which resolves the free
names `inspect` and `func`; both are unbound (see `helpersGlobals`), so
the name lookup of `inspect` raises `NameError` before any weight is
generated.  The `.ok` branch is dead code: it is unreachable for every
input, which is exactly what claim C10 asserts. -/
def weights (pre_neurons post_neurons : ℕ) (function : ℕ → ℕ → ℚ) :
    Except PyError (List (List ℚ)) :=
  match resolveName "inspect" with
  | .error e => .error e
  | .ok _ =>
      match resolveName "func" with
      | .error e => .error e
      | .ok _ =>
          .ok [[function pre_neurons post_neurons]]

/-- C10: for every choice of `pre_neurons`, `post_neurons` and `function`,
`helpers.weights` raises a `NameError` before returning — its body
references the undefined names `inspect` and `func` instead of its
parameter `function` — and never produces the documented weight matrix. -/
theorem weights_raises (pre_neurons post_neurons : ℕ) (function : ℕ → ℕ → ℚ) :
    weights pre_neurons post_neurons function =
      Except.error (PyError.nameError "inspect") := rfl

/-! ### Simulation engine counters (spec-modelled)

The engine (`nengo/simulator.py`) is not under `src/`; only its test
`TestModel.test_counters` is.  The following is modelled from the spec:
§3 gives the model a fixed step size `dt`, a monotonically increasing step
counter and an elapsed-time signal; §4.5 makes `run(duration)` repeat one
discrete step `ceil(duration/dt)` times; §8 ("Counter alignment") fixes
the probe alignment: the counters are sampled before the per-step
increment, so the first recorded sample is 0. -/

/-- Modelled from the spec: the state of a running compiled model.  `σ` is
the remaining model state (signals, neurons, ...), advanced by an
arbitrary per-step function — the counters are independent of it. -/
structure SimState (σ : Type) where
  modelState : σ
  steps : ℕ
  stepProbe : List ℕ
  timeProbe : List ℚ

/-- Modelled from the spec §4.5: one discrete step — advance the model
state (stages 1-4), feed the counter probes (before the increment, per
§8), then increment elapsed time by `dt` and the step counter by 1
(stage 5).  The elapsed time is `steps * dt`. -/
def simStep {σ : Type} (dt : ℚ) (f : σ → σ) (s : SimState σ) : SimState σ :=
  { modelState := f s.modelState
    steps := s.steps + 1
    stepProbe := s.stepProbe ++ [s.steps]
    timeProbe := s.timeProbe ++ [(s.steps : ℚ) * dt] }

/-- Modelled from the spec: the freshly built state — time 0, no samples. -/
def initState {σ : Type} (a : σ) : SimState σ :=
  { modelState := a, steps := 0, stepProbe := [], timeProbe := [] }

/-- Modelled from the spec §4.5: `run(duration)` repeats the step
`ceil(duration/dt)` times. -/
def simRun {σ : Type} (dt : ℚ) (f : σ → σ) (duration : ℚ) (s : SimState σ) :
    SimState σ :=
  (simStep dt f)^[⌈duration / dt⌉.toNat] s

/-- C2: for every compiled model with `dt = 0.001`, `run(0.003)` executes
exactly `ceil(0.003/0.001) = 3` steps, and the recorded elapsed-time
series is exactly `[0.000, 0.001, 0.002]` with the step-counter series
`[0, 1, 2]` — time is sampled before the per-step increment, so the first
sample is 0. -/
theorem counters_spec {σ : Type} (f : σ → σ) (a : σ) :
    (⌈((3 : ℚ)/1000) / ((1 : ℚ)/1000)⌉.toNat = 3) ∧
    (simRun ((1 : ℚ)/1000) f ((3 : ℚ)/1000) (initState a)).timeProbe =
      [0, 1/1000, 2/1000] ∧
    (simRun ((1 : ℚ)/1000) f ((3 : ℚ)/1000) (initState a)).stepProbe =
      [0, 1, 2] := by
  have h3 : ⌈((3 : ℚ)/1000) / ((1 : ℚ)/1000)⌉.toNat = 3 := by
    norm_num
    decide
  have hiter : simRun ((1 : ℚ)/1000) f ((3 : ℚ)/1000) (initState a) =
      simStep ((1 : ℚ)/1000) f (simStep ((1 : ℚ)/1000) f
        (simStep ((1 : ℚ)/1000) f (initState a))) := by
    rw [simRun, h3]
    rfl
  refine ⟨h3, ?_, ?_⟩
  · rw [hiter]
    simp [simStep, initState]
    norm_num
  · rw [hiter]
    simp [simStep, initState]

/-! ### Zero-order-hold latency (spec-modelled)

The per-step engine is not under `src/`.  Modelled from the spec §4.5: in
one step, (2) an Ensemble's input current is computed from inbound
connections' already-filtered values from the previous step (zero-order
hold), (3) its neurons advance and its decoded output is computed, (4)
each connection's filter is applied to the newly computed value, producing
the value read next step. -/

/-- Modelled from the spec: the state of the downstream Ensemble B in an
A→B chain — B's (abstract) neuron-population state together with the
filtered value of A's decoded output as of the previous step. -/
structure ChainState where
  bState : ℚ
  filt : ℚ
deriving DecidableEq

/-- Modelled from the spec §4.5: one step of the A→B chain at step `k`:
B advances on the previous step's filtered value `s.filt` (stages 2-3),
then the filter absorbs A's newly computed output `aOut k` (stage 4). -/
def chainStep (stepB filterF : ℚ → ℚ → ℚ) (aOut : ℕ → ℚ) (k : ℕ)
    (s : ChainState) : ChainState :=
  { bState := stepB s.bState s.filt
    filt := filterF s.filt (aOut k) }

/-- Modelled from the spec: the chain state entering step `k`. -/
def chainRun (stepB filterF : ℚ → ℚ → ℚ) (aOut : ℕ → ℚ)
    (init : ChainState) : ℕ → ChainState
  | 0 => init
  | k + 1 => chainStep stepB filterF aOut k (chainRun stepB filterF aOut init k)

/-- Modelled from the spec: B's decoded output computed at step `k` —
the decoder applied to B's neuron state right after step `k`'s advance. -/
def bOut (stepB filterF : ℚ → ℚ → ℚ) (decodeB : ℚ → ℚ) (aOut : ℕ → ℚ)
    (init : ChainState) (k : ℕ) : ℚ :=
  decodeB (chainRun stepB filterF aOut init (k + 1)).bState

lemma chainRun_congr (stepB filterF : ℚ → ℚ → ℚ) (a1 a2 : ℕ → ℚ)
    (init : ChainState) :
    ∀ (k : ℕ), (∀ j, j < k → a1 j = a2 j) →
      chainRun stepB filterF a1 init k = chainRun stepB filterF a2 init k
  | 0, _ => rfl
  | k + 1, h => by
      rw [chainRun, chainRun,
        chainRun_congr stepB filterF a1 a2 init k (fun j hj => h j (by omega)),
        chainStep, chainStep, h k (by omega)]

/-- C3: in the A→B chain, B's decoded output computed at step `k` is a
function only of A's outputs at steps `≤ k−1`, never of A's output at
step `k`: two runs whose A-output trajectories agree strictly before `k`
produce the same B output at `k` (one-step zero-order-hold latency). -/
theorem zoh_latency (stepB filterF : ℚ → ℚ → ℚ) (decodeB : ℚ → ℚ)
    (init : ChainState) (a1 a2 : ℕ → ℚ) (k : ℕ)
    (h : ∀ j, j < k → a1 j = a2 j) :
    bOut stepB filterF decodeB a1 init k =
      bOut stepB filterF decodeB a2 init k := by
  rw [bOut, bOut, chainRun, chainRun, chainStep, chainStep,
    chainRun_congr stepB filterF a1 a2 init k h]

/-- Witness for `zoh_latency`: two A-trajectories that agree at step 0 but
differ from step 1 on give the same B output at step 1. -/
theorem zoh_latency_witness :
    bOut (fun b u => b + u) (fun f x => f + x) (fun d => d)
        (fun _ => 0) ⟨0, 0⟩ 1 =
      bOut (fun b u => b + u) (fun f x => f + x) (fun d => d)
        (fun j => if j = 0 then 0 else 5) ⟨0, 0⟩ 1 :=
  zoh_latency (fun b u => b + u) (fun f x => f + x) (fun d => d) ⟨0, 0⟩
    (fun _ => 0) (fun j => if j = 0 then 0 else 5) 1 (by decide)

/-! ### Declaration-context stack (spec-modelled)

`nengo/context.py` is not under `src/`; only its test
(`nengo/tests/test_context.py`) is.  Modelled from the spec §3 (Model
(context)) and §4.3 (Context Builder): a stack of active contexts;
entering a context pushes it, exiting pops it; `register`/`add` always
adds to the top of the stack only. -/

/-- Modelled from the spec: a declaration context's membership — the list
of ids of the objects registered to it (`con.objs`). -/
abbrev Ctx := List ℕ

/-- Modelled from the spec: a declaration program — creating an object
(which registers it to the innermost active context) or a nested `with`
block whose body runs with a fresh context pushed.  The bracketing of
`with` blocks makes push/pop pairing structural, exactly as scope
entry/exit pairs them. -/
inductive Decl where
  | make (obj : ℕ)
  | block (body : List Decl)

/-- Modelled from the spec §4.3: `register(obj)` adds the object to the
top of the context stack only, never to ancestors. -/
def register (obj : ℕ) : List Ctx → List Ctx
  | [] => []
  | c :: rest => (c ++ [obj]) :: rest

mutual

/-- Modelled from the spec §4.3: executing one declaration against the
context stack: `make` registers to the innermost context; `block` pushes a
fresh context, runs its body, and pops it on exit. -/
def execDecl : Decl → List Ctx → List Ctx
  | .make o, s => register o s
  | .block body, s => (execList body ([] :: s)).tail

/-- Modelled from the spec §4.3: executing a declaration sequence. -/
def execList : List Decl → List Ctx → List Ctx
  | [], s => s
  | d :: ds, s => execList ds (execDecl d s)

end

mutual

theorem execDecl_frame : ∀ (d : Decl) (c : Ctx) (s : List Ctx),
    ∃ c', execDecl d (c :: s) = c' :: s
  | .make o, c, _ => ⟨c ++ [o], rfl⟩
  | .block body, c, s => by
      obtain ⟨e, he⟩ := execList_frame body [] (c :: s)
      refine ⟨c, ?_⟩
      rw [execDecl, he]
      rfl

theorem execList_frame : ∀ (ds : List Decl) (c : Ctx) (s : List Ctx),
    ∃ c', execList ds (c :: s) = c' :: s
  | [], c, _ => ⟨c, rfl⟩
  | d :: ds, c, s => by
      obtain ⟨c1, h1⟩ := execDecl_frame d c s
      obtain ⟨c2, h2⟩ := execList_frame ds c1 s
      exact ⟨c2, by rw [execList, h1, h2]⟩

end

/-- C4: objects created while an inner context is active register only to
that innermost context (`register` touches only the top of the stack);
closing an inner `with` block leaves every outer context's membership
exactly as it was before the block opened; and an object created after
the exit registers to the then-innermost enclosing context. -/
theorem context_nesting (body : List Decl) (s : List Ctx) (o : ℕ) (c : Ctx)
    (rest : List Ctx) :
    register o (c :: rest) = (c ++ [o]) :: rest ∧
    execDecl (Decl.block body) s = s ∧
    execList [Decl.block body, Decl.make o] (c :: rest) =
      (c ++ [o]) :: rest := by
  have hblock : ∀ s' : List Ctx, execDecl (Decl.block body) s' = s' := by
    intro s'
    obtain ⟨e, he⟩ := execList_frame body [] s'
    rw [execDecl, he]
    rfl
  refine ⟨rfl, hblock s, ?_⟩
  rw [execList, hblock (c :: rest)]
  rfl

/-! ### Model build: seeding and ensemble validation (spec-modelled)

`nengo/model.py`, `nengo/objects.py` and the build step are not under
`src/`; only their tests are.  Modelled from the spec §3, §4.1, §4.4 and
§7: `simulator()` lowers the declarative model into a compiled model,
drawing every random parameter (encoders, max_rates, intercepts) from an
RNG seeded only by the model's `seed`, deriving gain/bias from the drawn
max_rate/intercept pairs, and validating parameters before anything runs:
zero neuron counts or dimensions and mis-shaped user encoders abort the
build with a diagnostic and no partial compiled model. -/

/-- Modelled from the spec §7: a build-time error. -/
inductive BuildError where
  | shapeMismatch (msg : String)
  | invalidParameter (msg : String)
deriving DecidableEq

/-- Modelled from the spec §3 (Ensemble): a declared (pre-build) ensemble;
`encoders = none` means encoders are drawn randomly at build time. -/
structure EnsembleDecl where
  name : String
  nNeurons : ℕ
  dimensions : ℕ
  encoders : Option (List (List ℚ))
deriving DecidableEq

/-- Modelled from the spec §3 (Model): the declarative model — its seed
and its declared ensembles. -/
structure Model where
  seed : ℕ
  ensembles : List EnsembleDecl
deriving DecidableEq

/-- Modelled from the spec §2/§4.4: a deterministic RNG standing in for
numpy's seeded RandomState — a linear congruential generator; all
build-time randomness derives from the state threaded through the build. -/
def rngNext (state : ℕ) : ℕ := (state * 1103515245 + 12345) % 2 ^ 31

/-- One random rational draw together with the next RNG state. -/
def rngDraw (state : ℕ) : ℚ × ℕ :=
  let s := rngNext state
  (((s % 1000 : ℕ) : ℚ) / 1000, s)

/-- A vector of `n` consecutive draws. -/
def rngDrawList : ℕ → ℕ → List ℚ × ℕ
  | 0, state => ([], state)
  | n + 1, state =>
      let (x, s1) := rngDraw state
      let (xs, s2) := rngDrawList n s1
      (x :: xs, s2)

/-- An `n × d` matrix of consecutive draws. -/
def rngDrawMatrix : ℕ → ℕ → ℕ → List (List ℚ) × ℕ
  | 0, _, state => ([], state)
  | n + 1, d, state =>
      let (row, s1) := rngDrawList d state
      let (rows, s2) := rngDrawMatrix n d s1
      (row :: rows, s2)

/-- Modelled from the spec §4.1: gain and bias are derived once, as a
fixed deterministic function of the (max_rate, intercept) pair, by
inverting the steady-state rate curve.  (The LIF inversion involves
transcendental functions; the claims only need that the derivation is a
deterministic function of the drawn pair, which this rational inversion
of a linear rate curve makes exact.) -/
def gainBias (maxRate intercept : ℚ) : ℚ × ℚ :=
  let gain := maxRate / (1 - intercept)
  (gain, -gain * intercept)

/-- Modelled from the spec §3: a compiled ensemble's random-derived
parameters, as compared by `TestModelBuild.test_seeding`. -/
structure BuiltEnsemble where
  name : String
  encoders : List (List ℚ)
  maxRates : List ℚ
  intercepts : List ℚ
  gain : List ℚ
  bias : List ℚ
deriving DecidableEq

/-- Modelled from the spec §4.4: the non-failing tail of an ensemble
build — draw max_rates and intercepts and derive per-neuron gain/bias. -/
def finishEnsemble (e : EnsembleDecl) (enc : List (List ℚ)) (state : ℕ) :
    BuiltEnsemble × ℕ :=
  let (mrs, s1) := rngDrawList e.nNeurons state
  let (ics, s2) := rngDrawList e.nNeurons s1
  let gb := List.zipWith gainBias mrs ics
  ({ name := e.name, encoders := enc, maxRates := mrs, intercepts := ics,
     gain := gb.map Prod.fst, bias := gb.map Prod.snd }, s2)

/-- Modelled from the spec §4.4/§7: build one ensemble, validating before
any numerics — `n_neurons = 0` or `dimensions = 0` is an InvalidParameter
error and user-supplied encoders whose shape is not
`(n_neurons, dimensions)` are a ShapeMismatch error; otherwise the
encoders are the user's (or freshly drawn) and the remaining random
parameters are drawn. -/
def buildEnsemble (e : EnsembleDecl) (state : ℕ) :
    Except BuildError (BuiltEnsemble × ℕ) :=
  if e.nNeurons = 0 then
    .error (.invalidParameter (e.name ++ ": n_neurons must be positive"))
  else if e.dimensions = 0 then
    .error (.invalidParameter (e.name ++ ": dimensions must be positive"))
  else
    match e.encoders with
    | none =>
        let (enc, s1) := rngDrawMatrix e.nNeurons e.dimensions state
        .ok (finishEnsemble e enc s1)
    | some enc =>
        if enc.length = e.nNeurons ∧ ∀ row ∈ enc, row.length = e.dimensions then
          .ok (finishEnsemble e enc state)
        else
          .error (.shapeMismatch
            (e.name ++ ": encoders shape must be (n_neurons, dimensions)"))

/-- Modelled from the spec §4.4: build the declared ensembles in order,
threading the RNG state; any validation error aborts the whole build. -/
def buildModelGo : List EnsembleDecl → ℕ → Except BuildError (List BuiltEnsemble)
  | [], _ => .ok []
  | e :: es, st =>
      match buildEnsemble e st with
      | .error err => .error err
      | .ok (b, st') =>
          match buildModelGo es st' with
          | .error err => .error err
          | .ok bs => .ok (b :: bs)

/-- Modelled from the spec §4.4: one `simulator()` call — compile the
declarative model, with the RNG seeded only from the model's `seed`. -/
def buildModel (m : Model) : Except BuildError (List BuiltEnsemble) :=
  buildModelGo m.ensembles m.seed

/-- The random-derived parameters compared by the seeding test: encoders,
max_rates and intercepts of every ensemble and gain/bias of its neurons. -/
def randomParams (r : Except BuildError (List BuiltEnsemble)) :
    Except BuildError (List (List (List ℚ) × List ℚ × List ℚ × List ℚ × List ℚ)) :=
  r.map (fun bs => bs.map (fun b =>
    (b.encoders, b.maxRates, b.intercepts, b.gain, b.bias)))

/-- C1: building the same declarative model twice with the same fixed seed
(two `simulator()` calls on one Model) produces identical random-derived
parameters — equal encoders, max_rates and intercepts for every ensemble,
and equal gain and bias for every ensemble's neurons.  All build-time
randomness is drawn from an RNG re-seeded from the model's `seed` at each
`simulator()` call, so the two draw sequences coincide run for run. -/
theorem build_seeding (m : Model) (s1 s2 : ℕ) (h : s1 = s2) :
    randomParams (buildModel { m with seed := s1 }) =
      randomParams (buildModel { m with seed := s2 }) := by
  rw [h]

/-- Witness for `build_seeding`: the seeding-test scenario, seed 872. -/
theorem build_seeding_witness :
    randomParams (buildModel ⟨872, [⟨"A", 2, 1, none⟩, ⟨"B", 3, 1, none⟩]⟩) =
      randomParams (buildModel ⟨872, [⟨"A", 2, 1, none⟩, ⟨"B", 3, 1, none⟩]⟩) :=
  build_seeding ⟨0, [⟨"A", 2, 1, none⟩, ⟨"B", 3, 1, none⟩]⟩ 872 872 rfl

lemma buildEnsemble_ok_valid (e : EnsembleDecl) (st' : ℕ) (r : BuiltEnsemble × ℕ)
    (hr : buildEnsemble e st' = .ok r) :
    e.nNeurons ≠ 0 ∧ e.dimensions ≠ 0 ∧
      ∀ enc, e.encoders = some enc →
        enc.length = e.nNeurons ∧ ∀ row ∈ enc, row.length = e.dimensions := by
  rw [buildEnsemble] at hr
  by_cases h0 : e.nNeurons = 0
  · rw [if_pos h0] at hr
    exact absurd hr (by simp)
  · rw [if_neg h0] at hr
    by_cases h1 : e.dimensions = 0
    · rw [if_pos h1] at hr
      exact absurd hr (by simp)
    · rw [if_neg h1] at hr
      refine ⟨h0, h1, ?_⟩
      intro enc henc
      rw [henc] at hr
      replace hr :
          (if enc.length = e.nNeurons ∧ ∀ row ∈ enc, row.length = e.dimensions
            then Except.ok (finishEnsemble e enc st')
            else Except.error (BuildError.shapeMismatch
              (e.name ++ ": encoders shape must be (n_neurons, dimensions)"))) =
            Except.ok r := hr
      by_cases hsh : enc.length = e.nNeurons ∧ ∀ row ∈ enc, row.length = e.dimensions
      · exact hsh
      · rw [if_neg hsh] at hr
        exact absurd hr (by simp)

lemma buildModelGo_ok_valid :
    ∀ (es : List EnsembleDecl) (st : ℕ) (bs : List BuiltEnsemble),
      buildModelGo es st = .ok bs → ∀ e ∈ es,
        e.nNeurons ≠ 0 ∧ e.dimensions ≠ 0 ∧
          ∀ enc, e.encoders = some enc →
            enc.length = e.nNeurons ∧ ∀ row ∈ enc, row.length = e.dimensions
  | [], _, _, _, e, hmem => absurd hmem (List.not_mem_nil e)
  | d :: ds, st, bs, hbs, e, hmem => by
      rw [buildModelGo] at hbs
      rcases hd : buildEnsemble d st with err | r <;> rw [hd] at hbs
      · exact absurd hbs (by simp)
      · obtain ⟨b, st'⟩ := r
        replace hbs :
            (match buildModelGo ds st' with
              | Except.error err => Except.error err
              | Except.ok bs => Except.ok (b :: bs)) = Except.ok bs := hbs
        rcases List.mem_cons.mp hmem with he | he
        · subst he
          exact buildEnsemble_ok_valid e st (b, st') hd
        · rcases hgo : buildModelGo ds st' with err | bs' <;> rw [hgo] at hbs
          · exact absurd hbs (by simp)
          · exact buildModelGo_ok_valid ds st' bs' hgo e he

/-- C5: ensemble parameter validation happens at build time, before any
simulation step: zero `n_neurons` or `dimensions` is an InvalidParameter
error, a user-supplied encoder array whose shape is not
`(n_neurons, dimensions)` is a ShapeMismatch error, and a successful build
certifies all checks passed; at the model level, a compiled model exists
only if every declared ensemble validated, so no partial compiled model is
ever produced. -/
theorem ensemble_validation (e : EnsembleDecl) (st : ℕ) :
    (e.nNeurons = 0 ∨ e.dimensions = 0 →
      ∃ msg, buildEnsemble e st = .error (.invalidParameter msg)) ∧
    (e.nNeurons ≠ 0 → e.dimensions ≠ 0 → ∀ enc, e.encoders = some enc →
      ¬(enc.length = e.nNeurons ∧ ∀ row ∈ enc, row.length = e.dimensions) →
      ∃ msg, buildEnsemble e st = .error (.shapeMismatch msg)) ∧
    (∀ r, buildEnsemble e st = .ok r →
      e.nNeurons ≠ 0 ∧ e.dimensions ≠ 0 ∧
        ∀ enc, e.encoders = some enc →
          enc.length = e.nNeurons ∧ ∀ row ∈ enc, row.length = e.dimensions) ∧
    (∀ (m : Model) (bs : List BuiltEnsemble), buildModel m = .ok bs →
      e ∈ m.ensembles →
      e.nNeurons ≠ 0 ∧ e.dimensions ≠ 0 ∧
        ∀ enc, e.encoders = some enc →
          enc.length = e.nNeurons ∧ ∀ row ∈ enc, row.length = e.dimensions) := by
  refine ⟨?_, ?_, fun r => buildEnsemble_ok_valid e st r, ?_⟩
  · intro h0
    rw [buildEnsemble]
    rcases h0 with h0 | h0
    · rw [if_pos h0]
      exact ⟨_, rfl⟩
    · by_cases hn : e.nNeurons = 0
      · rw [if_pos hn]
        exact ⟨_, rfl⟩
      · rw [if_neg hn, if_pos h0]
        exact ⟨_, rfl⟩
  · intro h0 h1 enc henc hsh
    refine ⟨e.name ++ ": encoders shape must be (n_neurons, dimensions)", ?_⟩
    rw [buildEnsemble, if_neg h0, if_neg h1, henc]
    exact if_neg hsh
  · intro m bs hbs hmem
    exact buildModelGo_ok_valid m.ensembles m.seed bs hbs e hmem

/-- Witness for `ensemble_validation`: a zero-neuron declaration is an
InvalidParameter error and a mis-shaped encoder array a ShapeMismatch
error. -/
theorem ensemble_validation_witness :
    (∃ msg, buildEnsemble ⟨"A", 0, 1, none⟩ 3 =
        Except.error (BuildError.invalidParameter msg)) ∧
    (∃ msg, buildEnsemble ⟨"B", 10, 3, some [[1], [2], [3]]⟩ 3 =
        Except.error (BuildError.shapeMismatch msg)) :=
  ⟨(ensemble_validation ⟨"A", 0, 1, none⟩ 3).1 (Or.inl rfl),
    (ensemble_validation ⟨"B", 10, 3, some [[1], [2], [3]]⟩ 3).2.1
      (by decide) (by decide) [[1], [2], [3]] rfl (by decide)⟩

/-! ### Builder lookup (spec-modelled)

The Model/Builder `get` is not under `src/`; only its test
(`TestModel.test_get`) is.  Modelled from the spec §4.3/§9: `get` accepts
either a name string or an object; a name is resolved against the
registered names, an object by identity; anything else — and any absent
key — returns `None`, never an exception. -/

/-- Modelled from the spec: a registered object, with its Python identity
(`id(obj)`) modelled as a unique numeric id. -/
structure NamedObj where
  oid : ℕ
  name : String
deriving DecidableEq

/-- Modelled from the spec: the Builder's registry of declared objects. -/
structure Builder where
  objs : List NamedObj
deriving DecidableEq

/-- Modelled from the spec §9: the lookup key — a name string, an object
(identity lookup), or any other value (such as the integer `3` passed in
the test). -/
inductive LookupKey where
  | byName (s : String)
  | byObj (o : NamedObj)
  | other
deriving DecidableEq

/-- Modelled from the spec §4.3: `get(name_or_object)` — total, returning
`none` for any absent or foreign key (its `Option` result type makes
raising impossible), and the registered object itself when found. -/
def get (m : Builder) (k : LookupKey) : Option NamedObj :=
  match k with
  | .byName s => m.objs.find? (fun o => o.name == s)
  | .byObj o => m.objs.find? (fun q => q == o)
  | .other => none

lemma find?_beq_self (o : NamedObj) :
    ∀ (l : List NamedObj), o ∈ l → l.find? (fun q => q == o) = some o
  | [], h => absurd h (List.not_mem_nil o)
  | q :: t, h => by
      by_cases hq : q = o
      · subst hq
        rw [List.find?_cons_of_pos _ (by simp)]
      · rw [List.find?_cons_of_neg _ (by simp [hq])]
        rcases List.mem_cons.mp h with h' | h'
        · exact absurd h'.symm hq
        · exact find?_beq_self o t h'

lemma find?_name_self (o : NamedObj) :
    ∀ (l : List NamedObj), o ∈ l →
      (∀ q ∈ l, q.name = o.name → q = o) →
      l.find? (fun q => q.name == o.name) = some o
  | [], h, _ => absurd h (List.not_mem_nil o)
  | q :: t, h, huniq => by
      by_cases hq : q.name = o.name
      · rw [List.find?_cons_of_pos _ (by simp [hq])]
        rw [huniq q (List.mem_cons_self q t) hq]
      · rw [List.find?_cons_of_neg _ (by simp [hq])]
        rcases List.mem_cons.mp h with h' | h'
        · exact absurd (congrArg NamedObj.name h'.symm) hq
        · exact find?_name_self o t h'
            (fun p hp hpn => huniq p (List.mem_cons_of_mem q hp) hpn)

/-- C6: for every Builder and every lookup key — an unregistered name, an
unregistered object, or any other value — `get` returns `None` rather than
raising (its total `Option` result type); whatever it returns is a
registered object; and for every registered object, or registered
(unambiguous) name, it returns the registered object itself. -/
theorem get_spec (m : Builder) :
    (∀ k o, get m k = some o → o ∈ m.objs) ∧
    (∀ s, (∀ o ∈ m.objs, o.name ≠ s) → get m (.byName s) = none) ∧
    (∀ o, o ∉ m.objs → get m (.byObj o) = none) ∧
    (get m .other = none) ∧
    (∀ o ∈ m.objs, get m (.byObj o) = some o) ∧
    (∀ o ∈ m.objs, (∀ q ∈ m.objs, q.name = o.name → q = o) →
      get m (.byName o.name) = some o) := by
  refine ⟨?_, ?_, ?_, rfl, ?_, ?_⟩
  · intro k o hk
    cases k with
    | byName s => exact List.mem_of_find?_eq_some hk
    | byObj q => exact List.mem_of_find?_eq_some hk
    | other => exact absurd hk (by simp [get])
  · intro s hs
    rw [get]
    exact List.find?_eq_none.mpr (fun o ho => by simp [hs o ho])
  · intro o ho
    rw [get]
    refine List.find?_eq_none.mpr (fun q hq => ?_)
    simp only [beq_iff_eq]
    intro hqo
    exact ho (hqo ▸ hq)
  · intro o ho
    rw [get]
    exact find?_beq_self o m.objs ho
  · intro o ho huniq
    rw [get]
    exact find?_name_self o m.objs ho huniq

/-- Witness for `get_spec` on a one-object builder (the test's ensemble
`e`): absent names, foreign values and absent objects give `None`;
the registered name and object give the object itself. -/
theorem get_spec_witness :
    get ⟨[⟨1, "e"⟩]⟩ (.byName "r") = none ∧
    get ⟨[⟨1, "e"⟩]⟩ (.byObj ⟨2, "e"⟩) = none ∧
    get ⟨[⟨1, "e"⟩]⟩ .other = none ∧
    get ⟨[⟨1, "e"⟩]⟩ (.byObj ⟨1, "e"⟩) = some ⟨1, "e"⟩ ∧
    get ⟨[⟨1, "e"⟩]⟩ (.byName "e") = some ⟨1, "e"⟩ := by
  have h := get_spec ⟨[⟨1, "e"⟩]⟩
  exact ⟨h.2.1 "r" (by decide), h.2.2.1 ⟨2, "e"⟩ (by decide), h.2.2.2.1,
    h.2.2.2.2.1 ⟨1, "e"⟩ (by decide),
    h.2.2.2.2.2 ⟨1, "e"⟩ (by decide) (by decide)⟩

end Nengo
